import Mathlib

/-!
Verification of the CINN auto-schedule search-space core: a shallow embedding of
`LinearRandomEngine` (linear_random_engine.h) and `SearchSpace`
(search_space.cc), with theorems settling the behavioural claims about
seed normalization, forking, weighted rule sampling, sketch generation and
layered state transfer.

Conventions of the embedding:
  - C++ `int64_t` arithmetic is `Int` with `Int.tmod` for the truncating `%`;
    unsigned arithmetic is `Nat` with explicit `% 2 ^ 64` where wrap matters.
  - Fatal paths (`CHECK` failures, `LOG(FATAL)`) and undefined behaviour
    (modulo by zero, dereferencing a past-the-end map iterator) yield `none`.
  - Host entropy (`std::random_device`) and the process-global `rand()` stream
    are explicit input streams, since they are external to the program state.
  - External collaborators (the IR schedule, transformation rules, samplers)
    enter as function parameters matching their interface contract.
-/

namespace LinearRandomEngine

def multiplier : Int := 48271

def increment : Int := 0

def modulus : Int := 2147483647

/-- Embeds `GetDeviceRandomValue`: `std::random_device()() % modulus`, where the
value drawn from the host entropy source is the input `entropy`. -/
def GetDeviceRandomValue (entropy : Nat) : Int :=
  (entropy : Int) % modulus

/-- Embeds `NormalizeState`.  C++ `%` on `int64_t` truncates toward zero
(`Int.tmod`), so a negative input other than `-1` keeps a non-positive
remainder — negative unless the seed is an exact multiple of the modulus;
the `CHECK_GE(state, 0)` fatal abort is modelled as `none`. -/
def NormalizeState (entropy : Nat) (state : Int) : Option Int :=
  let s1 : Int := if state = -1 then GetDeviceRandomValue entropy else state.tmod modulus
  let s2 : Int := if s1 = 0 then 1 else s1
  if 0 ≤ s2 then some s2 else none

/-- Embeds `Next`: advance the bound seed cell once via the linear-congruential
recurrence and return the new state. -/
def Next (state : Int) : Int :=
  (increment + state * multiplier).tmod modulus

/-- Embeds `ForkState`: `(Next() * 32767) % 1999999973`, computed on the
`uint64_t` `result_type` returned by `Next()` and converted back to
`StateType`.  Returns (child seed, advanced engine state). -/
def ForkState (state : Int) : Int × Int :=
  let s' := Next state
  -- 18446744073709551616 = 2 ^ 64, the wrap modulus of `uint64_t`
  let out : Nat := (s'.emod 18446744073709551616).toNat
  ((((out * 32767) % 18446744073709551616) % 1999999973 : Nat), s')

end LinearRandomEngine

/-! ## Search space data model

Embedding of `search_space.cc`.  The IR schedule type is an abstract parameter
`Sched`; the program-representation collaborator enters as a `getAllBlocks`
function, and each `AutoGenRule` is the record of its interface contract.
Rules are referenced by index into the rule registry (pointers in the C++),
mapped to behaviour by a `ruleOf` function. -/

/-- Embeds `RuleApplyType` (auto_gen_rule.h): the four apply-types a rule's
`Init`/`AnalyseApplyType` can report. -/
inductive RuleApplyType where
  | kCannotApply
  | kApply
  | kApplyAndSkipThisRule
  | kApplyAndSkipAllRules
deriving DecidableEq, Repr

/-- Modelled from the spec: `SearchState::NOT_INIT_COST`, the sentinel
predicted cost meaning "not yet evaluated" (the constant's definition lives in
search_state.h, outside the provided sources; its value is irrelevant here). -/
def NOT_INIT_COST : Int := -1

/-- Embeds `SearchState`: program representation, predicted cost, and the
ordered list of applicable rule handles (rule registry indices). -/
structure SearchState (Sched : Type) where
  ir_schedule : Sched
  predicted_cost : Int
  applicable_rules : List Nat
deriving DecidableEq, Repr

/-- Interface contract of a transformation rule (`AutoGenRule`), the external
capability consumed by the search space: `Init` classifies applicability on a
schedule, `NumberApplicable` reports the number of applicable positions found
by `Init`, `Apply` rewrites the bound schedule at a local index,
`AnalyseApplyType` classifies applicability on one block of a state, and
`ApplyOnBlock` rewrites one block, fanning out into successor states. -/
structure AutoGenRule (Sched : Type) where
  init : Sched → RuleApplyType
  numberApplicable : Sched → Nat
  apply : Sched → Nat → Sched
  analyseApplyType : SearchState Sched → String → RuleApplyType
  applyOnBlock : SearchState Sched → String → List (SearchState Sched)

section SearchSpaceDefs

variable {Sched : Type}

/-- Embeds insertion into the `std::map<int, AutoGenRule*> weight_to_rule`
(`weight_to_rule[cur_weight] = rule`): sorted association list, replacing an
existing binding of the same key. -/
def mapInsert : List (Nat × Nat) → Nat → Nat → List (Nat × Nat)
  | [], k, v => [(k, v)]
  | (k', v') :: t, k, v =>
    if k < k' then (k, v) :: (k', v') :: t
    else if k = k' then (k, v) :: t
    else (k', v') :: mapInsert t k v

/-- Result of the rule-scanning loop of `RandomScheduleMutate`: the weight
table, the total weight `cur_weight`, the surviving `applicable_rules`, and
whether a `kApplyAndSkipAllRules` cleared the whole list. -/
structure MutateScan where
  table : List (Nat × Nat)
  curWeight : Nat
  rules : List Nat
  cleared : Bool
deriving DecidableEq, Repr

/-- Embeds the scanning loop of `RandomScheduleMutate` (part_001 lines
109-125): each rule still applicable is `Init`-classified; non-cannot-apply
rules enter the weight table at offset `cur_weight`, which then grows by their
`NumberApplicable()`; `kApplyAndSkipThisRule` erases the rule from the list,
`kApplyAndSkipAllRules` clears the whole list and stops the scan. -/
def mutateScanGo (ruleOf : Nat → AutoGenRule Sched) (sched : Sched) :
    List Nat → Nat → List (Nat × Nat) → MutateScan
  | [], w, tbl => ⟨tbl, w, [], false⟩
  | i :: rest, w, tbl =>
    match (ruleOf i).init sched with
    | .kCannotApply =>
      let r := mutateScanGo ruleOf sched rest w tbl
      { r with rules := if r.cleared then [] else i :: r.rules }
    | .kApply =>
      let r := mutateScanGo ruleOf sched rest
        (w + (ruleOf i).numberApplicable sched) (mapInsert tbl w i)
      { r with rules := if r.cleared then [] else i :: r.rules }
    | .kApplyAndSkipThisRule =>
      mutateScanGo ruleOf sched rest
        (w + (ruleOf i).numberApplicable sched) (mapInsert tbl w i)
    | .kApplyAndSkipAllRules =>
      ⟨mapInsert tbl w i, w + (ruleOf i).numberApplicable sched, [], true⟩

/-- Embeds the lookup `weight_to_rule.lower_bound(sample_index)` followed by
`if (iter->first > sample_index) --iter;` (part_001 lines 136-140): find the
first entry whose key is not less than the sample, stepping back one entry if
it is strictly greater.  `prev` carries the entry just before the current
sublist; dereferencing the past-the-end iterator (no key `≥ sample`) or
stepping back from the first entry is undefined behaviour, modelled `none`. -/
def selectGo (sample : Nat) : Option (Nat × Nat) → List (Nat × Nat) → Option (Nat × Nat)
  | _, [] => none
  | prev, (k, v) :: rest =>
    if sample ≤ k then (if sample < k then prev else some (k, v))
    else selectGo sample (some (k, v)) rest

/-- Embeds the sampling half of `RandomScheduleMutate` (part_001 lines
127-145), given the scan result: an empty weight table returns the state
unchanged apart from the rule-list edits; otherwise `rand() % cur_weight`
draws a sample (undefined when `cur_weight == 0`, modelled `none`), the table
lookup picks a rule, and its `Apply(sample_index - iter->first)` rewrites the
schedule.  The second component reports the sampled (rule, local index). -/
def mutateSample (ruleOf : Nat → AutoGenRule Sched) (r : Nat)
    (state : SearchState Sched) (scan : MutateScan) :
    Option (SearchState Sched × Option (Nat × Nat)) :=
  if scan.table.isEmpty then some ({ state with applicable_rules := scan.rules }, none)
  else if scan.curWeight = 0 then none
  else
    match selectGo (r % scan.curWeight) none scan.table with
    | none => none
    | some (k, i) =>
      some ({ state with
              applicable_rules := scan.rules
              ir_schedule := (ruleOf i).apply state.ir_schedule (r % scan.curWeight - k) },
            some (i, r % scan.curWeight - k))

/-- Embeds `SearchSpace::RandomScheduleMutate` (part_001 lines 101-146).
`r` is the value drawn from the process-global `rand()` for this round (only
consumed when the weight table is non-empty).  Returns the new state and,
when a rule was sampled, the pair (rule index, local apply index); `none`
models undefined behaviour: `rand() % cur_weight` with `cur_weight == 0`, or
an invalid weight-table lookup. -/
def RandomScheduleMutate (ruleOf : Nat → AutoGenRule Sched) (r : Nat)
    (state : SearchState Sched) :
    Option (SearchState Sched × Option (Nat × Nat)) :=
  mutateSample ruleOf r state
    (mutateScanGo ruleOf state.ir_schedule state.applicable_rules 0 [])

end SearchSpaceDefs

/-! ## Weight-table invariants for `RandomScheduleMutate` -/

/-- The weight table partitions `[a, w)`: entry offsets chain from `a` to the
total weight `w`, each advancing by its rule's weight. -/
def Chained (nums : Nat → Nat) : Nat → List (Nat × Nat) → Nat → Prop
  | a, [], w => a = w
  | a, (k, i) :: rest, w => k = a ∧ Chained nums (k + nums i) rest w

/-- Keys of the association list are strictly increasing, as in `std::map`. -/
def SortedKeys (tbl : List (Nat × Nat)) : Prop :=
  List.Pairwise (fun e1 e2 => e1.1 < e2.1) tbl

/-! ## Layered state transfer and sketch generation

The Block/Rule samplers are declared in block_sampler.h / rule_sampler.h,
which are outside the provided sources.  Modelled from the spec: a
`traversal` sampler yields its candidates in input order exactly once, so its
emission sequence is the candidate list itself; a `probabilistic` sampler
yields candidates in a randomized order drawn from the Random Engine (with or
without replacement), so its emission sequence enters the embedding as an
explicit parameter (`blockSeq`, `ruleSeqs`).  The `std::mt19937` generators
that `search_space.cc` itself seeds from `std::random_device` are likewise
explicit draw streams (`stepDraws`, `pruneDraws`). -/

section TransferDefs

variable {Sched : Type}

/-- Embeds `CheckBlockExist` (part_001 lines 248-258): does the state's
schedule still contain a block with this name. -/
def CheckBlockExist (getAllBlocks : Sched → List String) (state : SearchState Sched)
    (block_name : String) : Bool :=
  (getAllBlocks state.ir_schedule).contains block_name

/-- Embeds one pass of the inner loop of `CollectStateTransfer` (part_001
lines 274-304): one rule is run over every live state; states lacking the
block or where the rule cannot apply are kept unchanged; otherwise the rule's
`ApplyOnBlock` fan-out is collected and the state is pruned either by the
rule's skip-all signal (`prune_by_rule`) or when a fresh host-entropy draw
falls below `prune_probability`.  Returns (surviving layer, new states, next
prune-draw index). -/
def transferStep (ruleOf : Nat → AutoGenRule Sched) (getAllBlocks : Sched → List String)
    (block_name : String) (rl : Nat) (prune_by_rule : Bool) (prune_probability : Rat)
    (pruneDraws : Nat → Rat) :
    List (SearchState Sched) → Nat →
    List (SearchState Sched) × List (SearchState Sched) × Nat
  | [], d => ([], [], d)
  | st :: rest, d =>
    if CheckBlockExist getAllBlocks st block_name = false then
      let r := transferStep ruleOf getAllBlocks block_name rl prune_by_rule
        prune_probability pruneDraws rest d
      (st :: r.1, r.2.1, r.2.2)
    else
      match (ruleOf rl).analyseApplyType st block_name with
      | .kCannotApply =>
        let r := transferStep ruleOf getAllBlocks block_name rl prune_by_rule
          prune_probability pruneDraws rest d
        (st :: r.1, r.2.1, r.2.2)
      | ty =>
        let tmp := (ruleOf rl).applyOnBlock st block_name
        if prune_by_rule then
          let r := transferStep ruleOf getAllBlocks block_name rl prune_by_rule
            prune_probability pruneDraws rest d
          ((if ty = .kApplyAndSkipAllRules then r.1 else st :: r.1), tmp ++ r.2.1, r.2.2)
        else
          let r := transferStep ruleOf getAllBlocks block_name rl prune_by_rule
            prune_probability pruneDraws rest (d + 1)
          ((if pruneDraws d < prune_probability then r.1 else st :: r.1), tmp ++ r.2.1, r.2.2)

/-- Embeds the step loop of `CollectStateTransfer` (part_001 line 270): run
while `step++ < steps || steps == 0` and the rule sampler still yields a rule
(`ruleSeq` is the sampler's emission sequence); each step splices the new
states onto the end of the layer. -/
def collectGo (ruleOf : Nat → AutoGenRule Sched) (getAllBlocks : Sched → List String)
    (block_name : String) (steps : Nat) (prune_by_rule : Bool)
    (prune_probability : Rat) (pruneDraws : Nat → Rat) :
    List Nat → Nat → List (SearchState Sched) → Nat → List (SearchState Sched) × Nat
  | [], _step, layer, d => (layer, d)
  | rl :: rest, step, layer, d =>
    if step < steps ∨ steps = 0 then
      let r := transferStep ruleOf getAllBlocks block_name rl prune_by_rule
        prune_probability pruneDraws layer d
      collectGo ruleOf getAllBlocks block_name steps prune_by_rule prune_probability
        pruneDraws rest (step + 1) (r.1 ++ r.2.1) r.2.2
    else (layer, d)

/-- Embeds `SearchSpace::CollectStateTransfer` (part_001 lines 260-310):
breadth-first expansion of one state restricted to one block, driven by the
rule sampler's emission sequence.  Returns the final layer (which includes
every unpruned ancestor) and the next prune-draw index. -/
def CollectStateTransfer (ruleOf : Nat → AutoGenRule Sched)
    (getAllBlocks : Sched → List String) (state : SearchState Sched)
    (block_name : String) (ruleSeq : List Nat) (steps : Nat) (prune_by_rule : Bool)
    (prune_probability : Rat) (pruneDraws : Nat → Rat) (d : Nat) :
    List (SearchState Sched) × Nat :=
  collectGo ruleOf getAllBlocks block_name steps prune_by_rule prune_probability
    pruneDraws ruleSeq 0 [state] d

/-- Embeds the two-buffer frontier loop shared by both pruned generators
(part_001 lines 201-213): per block, clear the next buffer, expand every
state of the current buffer into it, then swap the buffers.  When the block
supply is exhausted the function returns `*p_states_next`, the buffer that
was current before the last processed block's expansion. -/
def sketchLoop (expand : String → SearchState Sched → List (SearchState Sched)) :
    List String → List (SearchState Sched) → List (SearchState Sched) →
    List (SearchState Sched)
  | [], _cur, next => next
  | b :: bs, cur, next => sketchLoop expand bs (cur.flatMap (expand b)) cur

/-- Embeds `SearchSpace::GetRulePrunedInitialSketch` (part_001 lines 187-216):
blocks are visited in reverse declaration order by a traversal Block Sampler
(emission = the reversed block list), the last registry rule is excluded, each
state is expanded by a fresh traversal Rule Sampler (emission = `init_rules`)
with unbounded steps and rule-driven pruning.  The `CHECK` on an empty
`init_rules` is a fatal abort, modelled `none`.  (`prune_probability` is
unused when pruning by rule; the call site passes only five arguments.) -/
def GetRulePrunedInitialSketch (ruleOf : Nat → AutoGenRule Sched)
    (getAllBlocks : Sched → List String) (sketch_rules : List Nat) (initSched : Sched) :
    Option (List (SearchState Sched)) :=
  let all_blocks := (getAllBlocks initSched).reverse
  let init_rules := sketch_rules.dropLast
  if init_rules.length = 0 then none
  else
    some (sketchLoop
      (fun b st => (CollectStateTransfer ruleOf getAllBlocks st b init_rules 0 true
        0 (fun _ => 0) 0).1)
      all_blocks [SearchState.mk initSched NOT_INIT_COST []] [])

/-- Embeds the per-block expansion of `GetRandomPrunedInitialSketch` (part_001
lines 176-180): each state of the frontier gets a fresh probabilistic rule
sampler (emission `ruleSeqs ri`) and is expanded with the drawn step budget
and randomized pruning with `prune_probability = 1`.  Threads the rule-sampler
instantiation counter and the prune-draw index. -/
def randomExpandStates (ruleOf : Nat → AutoGenRule Sched)
    (getAllBlocks : Sched → List String) (b : String) (steps : Nat)
    (ruleSeqs : Nat → List Nat) (pruneDraws : Nat → Rat) :
    List (SearchState Sched) → Nat → Nat →
    List (SearchState Sched) × Nat × Nat
  | [], ri, pi => ([], ri, pi)
  | st :: rest, ri, pi =>
    let r := CollectStateTransfer ruleOf getAllBlocks st b (ruleSeqs ri) steps false
      1 pruneDraws pi
    let rest' := randomExpandStates ruleOf getAllBlocks b steps ruleSeqs pruneDraws
      rest (ri + 1) r.2
    (r.1 ++ rest'.1, rest'.2.1, rest'.2.2)

/-- Embeds the block loop of `GetRandomPrunedInitialSketch` (part_001 lines
167-182): per emitted block, draw a step budget from the `std::mt19937`
seeded with host entropy (`stepDraws`), cap it by the remaining depth budget,
expand the frontier, and swap buffers; stop when the sampler is exhausted or
the depth budget is spent, returning `*p_states_next`. -/
def randomSketchLoop (ruleOf : Nat → AutoGenRule Sched)
    (getAllBlocks : Sched → List String) (depth : Nat) (stepDraws : Nat → Nat)
    (ruleSeqs : Nat → List Nat) (pruneDraws : Nat → Rat) :
    List String → Nat → Nat → Nat → Nat →
    List (SearchState Sched) → List (SearchState Sched) → List (SearchState Sched)
  | [], _total, _si, _ri, _pi, _cur, next => next
  | b :: bs, total, si, ri, pi, cur, next =>
    if total < depth then
      let steps0 := stepDraws si
      let steps := if depth < total + steps0 then depth - total else steps0
      let ex := randomExpandStates ruleOf getAllBlocks b steps ruleSeqs pruneDraws cur ri pi
      randomSketchLoop ruleOf getAllBlocks depth stepDraws ruleSeqs pruneDraws bs
        (total + steps) (si + 1) ex.2.1 ex.2.2 ex.1 cur
    else next

/-- Embeds `SearchSpace::GetRandomPrunedInitialSketch` (part_001 lines
148-185): probabilistic block sampling (emission `blockSeq`, modelled from the
spec), the last registry rule excluded, per-block step budgets drawn from a
host-entropy-seeded `std::mt19937` (`stepDraws`; the
`uniform_int_distribution` ranges over `0 ... init_rules.size()` inclusive),
and per-state randomized pruning with probability 1. -/
def GetRandomPrunedInitialSketch (ruleOf : Nat → AutoGenRule Sched)
    (getAllBlocks : Sched → List String) (sketch_rules : List Nat) (initSched : Sched)
    (depth : Nat) (blockSeq : List String) (stepDraws : Nat → Nat)
    (ruleSeqs : Nat → List Nat) (pruneDraws : Nat → Rat) :
    Option (List (SearchState Sched)) :=
  let init_rules := sketch_rules.dropLast
  if init_rules.length = 0 then none
  else
    some (randomSketchLoop ruleOf getAllBlocks depth stepDraws ruleSeqs pruneDraws
      blockSeq 0 0 0 0 [SearchState.mk initSched NOT_INIT_COST []] [])

/-- Embeds the inner accumulation of `GetInitialSketch` (part_001 lines
232-237): push sketches in reverse order, stopping once `num` results have
accumulated. -/
def pushUpto (num : Nat) : List (SearchState Sched) → List (SearchState Sched) →
    List (SearchState Sched)
  | acc, [] => acc
  | acc, s :: rest =>
    if (acc ++ [s]).length = num then acc ++ [s] else pushUpto num (acc ++ [s]) rest

/-- Embeds the `while (result.size() < num)` loop of `GetInitialSketch`
(part_001 lines 222-238), generating batches from `gens` (the per-call sketch
results).  `fuel` bounds the number of iterations: the C++ loop never
terminates when every batch is empty, which surfaces here as `none`. -/
def accumLoop (gens : Nat → Option (List (SearchState Sched))) (num : Nat) :
    Nat → Nat → List (SearchState Sched) → Option (List (SearchState Sched))
  | 0, _ci, acc => if num ≤ acc.length then some acc else none
  | fuel + 1, ci, acc =>
    if num ≤ acc.length then some acc
    else
      match gens ci with
      | none => none
      | some sk => accumLoop gens num fuel (ci + 1) (pushUpto num acc sk.reverse)

/-- Embeds `SearchSpace::GetInitialSketch` (part_001 lines 218-246).  The
`rule_prune` strategy repeatedly calls the deterministic
`GetRulePrunedInitialSketch`; the `random_prune` strategy's successive calls
draw fresh host entropy, so they enter as the oracle family `randomRuns`; an
unrecognized strategy is `LOG(FATAL)`, modelled `none`. -/
def GetInitialSketch (ruleOf : Nat → AutoGenRule Sched)
    (getAllBlocks : Sched → List String) (sketch_rules : List Nat) (initSched : Sched)
    (randomRuns : Nat → Option (List (SearchState Sched)))
    (fuel num : Nat) (strategy : String) : Option (List (SearchState Sched)) :=
  if strategy = "rule_prune" then
    match GetRulePrunedInitialSketch ruleOf getAllBlocks sketch_rules initSched with
    | none => none
    | some sk => accumLoop (fun _ => some sk) num fuel 0 []
  else if strategy = "random_prune" then
    accumLoop randomRuns num fuel 0 []
  else none

/-- One depth round of `GetRandomInitialSketch` (part_001 line 65): a
`RandomScheduleMutate` call, threading the index into the `rand()` stream
(`rand()` is consumed exactly when the weight table is non-empty). -/
def mutateStep (ruleOf : Nat → AutoGenRule Sched) (rand : Nat → Nat) (k : Nat)
    (st : SearchState Sched) : Option (SearchState Sched × Nat) :=
  match RandomScheduleMutate ruleOf (rand k) st with
  | none => none
  | some (s', none) => some (s', k)
  | some (s', some _) => some (s', k + 1)

/-- Embeds the depth loop of `GetRandomInitialSketch` (part_001 lines 63-69):
up to `depth` mutation rounds, stopping early once no rule remains
applicable. -/
def sketchRounds (ruleOf : Nat → AutoGenRule Sched) (rand : Nat → Nat) :
    Nat → SearchState Sched → Nat → Option (SearchState Sched × Nat)
  | 0, st, k => some (st, k)
  | dd + 1, st, k =>
    match mutateStep ruleOf rand k st with
    | none => none
    | some (s', k') =>
      if s'.applicable_rules.isEmpty then some (s', k')
      else sketchRounds ruleOf rand dd s' k'

/-- Embeds the `while (result.size() < num)` loop of `GetRandomInitialSketch`
(part_001 lines 61-77): each iteration starts a fresh root state carrying the
whole registry and appends the mutated result. -/
def randomSketchGo (ruleOf : Nat → AutoGenRule Sched) (sketch_rules : List Nat)
    (initSched : Sched) (depth : Nat) (rand : Nat → Nat) :
    Nat → Nat → List (SearchState Sched) → Option (List (SearchState Sched) × Nat)
  | 0, k, acc => some (acc, k)
  | n + 1, k, acc =>
    match sketchRounds ruleOf rand depth (SearchState.mk initSched NOT_INIT_COST sketch_rules) k with
    | none => none
    | some (s, k') =>
      randomSketchGo ruleOf sketch_rules initSched depth rand n k' (acc ++ [s])

/-- Embeds `SearchSpace::GetRandomInitialSketch` (part_001 lines 52-80):
collect `num` sketches, each produced by up to `depth`
(`init_sketch_random_depth_`) random mutations of a fresh root state holding
the full rule registry; all randomness comes from the process-global `rand()`
stream. -/
def GetRandomInitialSketch (ruleOf : Nat → AutoGenRule Sched) (sketch_rules : List Nat)
    (initSched : Sched) (depth num : Nat) (rand : Nat → Nat) :
    Option (List (SearchState Sched)) :=
  (randomSketchGo ruleOf sketch_rules initSched depth rand num 0 []).map Prod.fst

end TransferDefs

/-! ## The buffer-swap semantics of the pruned generators (C10) -/

section FrontierDefs

variable {Sched : Type}

/-- The natural semantics of the block loop: fold each block's expansion over
the frontier, returning the final frontier. -/
def frontierFold (expand : String → SearchState Sched → List (SearchState Sched)) :
    List String → List (SearchState Sched) → List (SearchState Sched)
  | [], cur => cur
  | b :: bs, cur => frontierFold expand bs (cur.flatMap (expand b))

/-- The successive frontiers of the random-pruned block loop, starting with
the current one, up to sampler exhaustion or depth-budget exhaustion. -/
def randomFrontierSeq (ruleOf : Nat → AutoGenRule Sched)
    (getAllBlocks : Sched → List String) (depth : Nat) (stepDraws : Nat → Nat)
    (ruleSeqs : Nat → List Nat) (pruneDraws : Nat → Rat) :
    List String → Nat → Nat → Nat → Nat → List (SearchState Sched) →
    List (List (SearchState Sched))
  | [], _total, _si, _ri, _pi, cur => [cur]
  | b :: bs, total, si, ri, pi, cur =>
    if total < depth then
      let steps0 := stepDraws si
      let steps := if depth < total + steps0 then depth - total else steps0
      let ex := randomExpandStates ruleOf getAllBlocks b steps ruleSeqs pruneDraws cur ri pi
      cur :: randomFrontierSeq ruleOf getAllBlocks depth stepDraws ruleSeqs pruneDraws
        bs (total + steps) (si + 1) ex.2.1 ex.2.2 ex.1
    else [cur]

end FrontierDefs

/-! ## Concrete rule behaviours for witnesses and counterexamples -/

/-- Rule behaviour whose `Init` always reports cannot-apply. -/
def ruleCannot : AutoGenRule Unit :=
  { init := fun _ => .kCannotApply
    numberApplicable := fun _ => 0
    apply := fun s _ => s
    analyseApplyType := fun _ _ => .kCannotApply
    applyOnBlock := fun _ _ => [] }

/-- Rule behaviour that applies once and then excludes itself. -/
def ruleSkipSelf : AutoGenRule Unit :=
  { init := fun _ => .kApplyAndSkipThisRule
    numberApplicable := fun _ => 1
    apply := fun s _ => s
    analyseApplyType := fun _ _ => .kCannotApply
    applyOnBlock := fun _ _ => [] }

/-- Rule behaviour that reports applicable with zero applicable positions. -/
def ruleZeroWeight : AutoGenRule Unit :=
  { init := fun _ => .kApply
    numberApplicable := fun _ => 0
    apply := fun s _ => s
    analyseApplyType := fun _ _ => .kCannotApply
    applyOnBlock := fun _ _ => [] }

/-- Rule behaviour that applies with exactly one applicable position. -/
def ruleUnitWeight : AutoGenRule Unit :=
  { init := fun _ => .kApply
    numberApplicable := fun _ => 1
    apply := fun s _ => s
    analyseApplyType := fun _ _ => .kCannotApply
    applyOnBlock := fun _ _ => [] }

/-- Rule behaviour on block-list schedules that never applies anywhere. -/
def ruleCannotL : AutoGenRule (List String) :=
  { init := fun _ => .kCannotApply
    numberApplicable := fun _ => 0
    apply := fun s _ => s
    analyseApplyType := fun _ _ => .kCannotApply
    applyOnBlock := fun _ _ => [] }

/-- Rule behaviour on block-list schedules that always applies on a block,
fanning out one successor whose schedule gains a marker entry. -/
def ruleGrow : AutoGenRule (List String) :=
  { init := fun _ => .kApply
    numberApplicable := fun _ => 1
    apply := fun s _ => s
    analyseApplyType := fun _ _ => .kApply
    applyOnBlock := fun st _ => [SearchState.mk (st.ir_schedule ++ ["m"]) NOT_INIT_COST []] }

/-- Registry for the C4 scenario: one growing rule plus the excluded last
rule. -/
def ruleOfC4 : Nat → AutoGenRule (List String) := fun i =>
  if i = 0 then ruleGrow else ruleCannotL

/-- Rule behaviour that always applies at one position, appending a tag to
the schedule when applied. -/
def ruleAppend (tag : String) : AutoGenRule (List String) :=
  { init := fun _ => .kApply
    numberApplicable := fun _ => 1
    apply := fun s _ => s ++ [tag]
    analyseApplyType := fun _ _ => .kCannotApply
    applyOnBlock := fun _ _ => [] }

/-- Registry for the C5 scenario: four rules, two of which can fire. -/
def ruleOfC5 : Nat → AutoGenRule (List String) := fun i =>
  if i = 0 then ruleAppend "r0" else if i = 1 then ruleAppend "r1" else ruleCannotL

/-! ## Claims about the random engine (C3, C8) -/

section EngineTheorems

open LinearRandomEngine

/-- Advancing from a state in `[1, modulus-1]` stays in `[1, modulus-1]`:
the recurrence multiplies by `48271`, coprime to the prime modulus. -/
theorem Next_mem_range (s : Int) (h1 : 1 ≤ s) (h2 : s ≤ modulus - 1) :
    1 ≤ Next s ∧ Next s ≤ modulus - 1 := by
  have hm : (0 : Int) ≤ 2147483647 := by norm_num
  have hnn : (0 : Int) ≤ s * 48271 := by positivity
  have hdef : Next s = (s * 48271) % 2147483647 := by
    show ((0 : Int) + s * 48271).tmod 2147483647 = _
    rw [zero_add, Int.tmod_eq_emod hnn hm]
  have hlow : 0 ≤ (s * 48271) % 2147483647 := Int.emod_nonneg _ (by norm_num)
  have hhigh : (s * 48271) % 2147483647 < 2147483647 := Int.emod_lt_of_pos _ (by norm_num)
  have hne : (s * 48271) % 2147483647 ≠ 0 := by
    intro h0
    have hdvd : (2147483647 : Int) ∣ s * 48271 := Int.dvd_of_emod_eq_zero h0
    have hcop : IsCoprime (2147483647 : Int) 48271 := by norm_num
    have hs : (2147483647 : Int) ∣ s := hcop.dvd_of_dvd_mul_right hdvd
    have := Int.le_of_dvd (by omega) hs
    simp only [modulus] at h2
    omega
  rw [hdef]
  simp only [modulus]
  omega

/-- On a state in range, `ForkState` computes `(Next s * 32767) % 1999999973`
with no `uint64_t` wrap-around. -/
theorem ForkState_eq_of_mem_range (s : Int) (h1 : 1 ≤ s) (h2 : s ≤ modulus - 1) :
    ForkState s = ((Next s * 32767) % 1999999973, Next s) := by
  obtain ⟨hn1, hn2⟩ := Next_mem_range s h1 h2
  simp only [modulus] at hn2
  have hcast : (Next s).emod 18446744073709551616 = Next s :=
    Int.emod_eq_of_lt (by omega) (by omega)
  have htn : ((Next s).toNat : Int) = Next s := Int.toNat_of_nonneg (by omega)
  have htb : (Next s).toNat ≤ 2147483646 := by omega
  have hnowrap : (Next s).toNat * 32767 % 18446744073709551616 = (Next s).toNat * 32767 :=
    Nat.mod_eq_of_lt (by omega)
  have key : (((((Next s).emod 18446744073709551616).toNat * 32767
      % 18446744073709551616) % 1999999973 : Nat) : Int) = Next s * 32767 % 1999999973 := by
    rw [hcast, hnowrap]
    push_cast
    rw [htn]
  have hunf : ForkState s
      = ((((((Next s).emod 18446744073709551616).toNat * 32767
          % 18446744073709551616) % 1999999973 : Nat) : Int), Next s) := rfl
  rw [hunf, key]

/-- Equal remainders modulo `m` mean `m` divides the difference. -/
theorem dvd_sub_of_emod_eq {a b m : Int} (h : a % m = b % m) : m ∣ b - a :=
  Int.ModEq.dvd h

/-- C8 counterexample: at the valid starting state 617220413, the child seed
returned by `ForkState` equals the parent's state as it was before the call,
refuting the claim that no child seed ever equals the parent's prior state. -/
theorem forkState_child_eq_parent_at_617220413 :
    (1 ≤ (617220413 : Int) ∧ (617220413 : Int) ≤ modulus - 1) ∧
    (ForkState 617220413).1 = 617220413 := by
  constructor
  · constructor
    · decide
    · decide
  · decide

/-- C8 (amended): `ForkState` advances the engine state exactly once via the
recurrence and returns `(new_state * 32767) % 1999999973`; for every valid
starting state in `[1, modulus-1]`, two consecutive `ForkState` calls yield two
different child seeds.  (A child seed can, exceptionally, coincide with the
parent's prior state: see the counterexample at state 617220413.) -/
theorem forkState_advances_once_and_children_differ (s : Int)
    (h1 : 1 ≤ s) (h2 : s ≤ modulus - 1) :
    (ForkState s).2 = Next s ∧
    (ForkState s).1 = (Next s * 32767) % 1999999973 ∧
    (ForkState (ForkState s).2).1 ≠ (ForkState s).1 := by
  obtain ⟨h11, h12⟩ := Next_mem_range s h1 h2
  obtain ⟨h21, h22⟩ := Next_mem_range (Next s) h11 h12
  have e1 := ForkState_eq_of_mem_range s h1 h2
  have e2 := ForkState_eq_of_mem_range (Next s) h11 h12
  have p2 : (ForkState s).2 = Next s := by rw [e1]
  have p1 : (ForkState s).1 = (Next s * 32767) % 1999999973 := by rw [e1]
  have q1 : (ForkState (Next s)).1 = (Next (Next s) * 32767) % 1999999973 := by rw [e2]
  refine ⟨p2, p1, ?_⟩
  rw [p2, q1, p1]
  set s1 := Next s with hs1def
  set s2 := Next s1 with hs2def
  clear_value s2 s1
  clear e1 e2 p1 p2 q1
  simp only [modulus] at h12 h22
  -- Relate s2 to s1 through the recurrence, modulo the modulus.
  have hnn : (0 : Int) ≤ s1 * 48271 := by positivity
  have hrec : s2 = (s1 * 48271) % 2147483647 := by
    rw [hs2def]
    show ((0 : Int) + s1 * 48271).tmod 2147483647 = _
    rw [zero_add, Int.tmod_eq_emod hnn (by norm_num)]
  have hrel : (2147483647 : Int) ∣ s1 * 48271 - s2 := by
    have hmm : s2 % 2147483647 = (s1 * 48271) % 2147483647 := by
      rw [hrec, Int.emod_emod_of_dvd _ dvd_rfl]
    exact dvd_sub_of_emod_eq hmm
  intro hchild
  -- Equal children force the two states to agree modulo 1999999973.
  have hdvd1 : (1999999973 : Int) ∣ s1 * 32767 - s2 * 32767 :=
    dvd_sub_of_emod_eq hchild
  have hdvd1' : (1999999973 : Int) ∣ (s1 - s2) * 32767 := by
    have hr : (s1 - s2) * 32767 = s1 * 32767 - s2 * 32767 := by ring
    rw [hr]; exact hdvd1
  have hcop1 : IsCoprime (1999999973 : Int) 32767 := by norm_num
  have hdvd2 : (1999999973 : Int) ∣ s1 - s2 := hcop1.dvd_of_dvd_mul_right hdvd1'
  obtain ⟨k, hk⟩ := hdvd2
  clear hchild hdvd1 hdvd1' hrec hnn hs1def hs2def h1 h2 hcop1
  have hk3 : k = -1 ∨ k = 0 ∨ k = 1 := by omega
  have hcop2 : IsCoprime (2147483647 : Int) 48270 := by norm_num
  rcases hk3 with hk1 | hk0 | hk1
  · -- s1 - s2 = -1999999973: pins s1 to 1635056381, then s2 ≥ modulus, impossible.
    subst hk1
    have heq : 48270 * s1 - 1999999973 = s1 * 48271 - s2 := by omega
    have hs1p : (2147483647 : Int) ∣ 48270 * s1 - 1999999973 := by
      rw [heq]; exact hrel
    have hB : (2147483647 : Int) ∣ 48270 * 1635056381 - 1999999973 := by
      apply Int.dvd_of_emod_eq_zero; decide
    have hdiff : (2147483647 : Int) ∣ 48270 * (s1 - 1635056381) := by
      have hr : 48270 * (s1 - 1635056381) =
          (48270 * s1 - 1999999973) - (48270 * 1635056381 - 1999999973) := by ring
      rw [hr]; exact dvd_sub hs1p hB
    have hfix : (2147483647 : Int) ∣ s1 - 1635056381 :=
      hcop2.dvd_of_dvd_mul_left hdiff
    obtain ⟨c, hc⟩ := hfix
    omega
  · -- s1 = s2: the recurrence would need the modulus to divide 48270 * s1.
    subst hk0
    have hdd : (2147483647 : Int) ∣ s1 * 48270 := by
      have heq : s1 * 48270 = s1 * 48271 - s2 := by omega
      rw [heq]; exact hrel
    have hs : (2147483647 : Int) ∣ s1 := hcop2.dvd_of_dvd_mul_right hdd
    have := Int.le_of_dvd (by omega) hs
    omega
  · -- s1 - s2 = 1999999973: pins s1 to 512427266, then s2 < 0, impossible.
    subst hk1
    have heq : 48270 * s1 + 1999999973 = s1 * 48271 - s2 := by omega
    have hs1p : (2147483647 : Int) ∣ 48270 * s1 + 1999999973 := by
      rw [heq]; exact hrel
    have hA : (2147483647 : Int) ∣ 48270 * 512427266 + 1999999973 := by
      apply Int.dvd_of_emod_eq_zero; decide
    have hdiff : (2147483647 : Int) ∣ 48270 * (s1 - 512427266) := by
      have hr : 48270 * (s1 - 512427266) =
          (48270 * s1 + 1999999973) - (48270 * 512427266 + 1999999973) := by ring
      rw [hr]; exact dvd_sub hs1p hA
    have hfix : (2147483647 : Int) ∣ s1 - 512427266 :=
      hcop2.dvd_of_dvd_mul_left hdiff
    obtain ⟨c, hc⟩ := hfix
    omega

/-- Witness for the amended C8 theorem at the concrete state 1. -/
theorem forkState_advances_once_and_children_differ_witness :
    (1 ≤ (1 : Int)) ∧ ((1 : Int) ≤ modulus - 1) ∧
    ((ForkState 1).2 = Next 1 ∧
     (ForkState 1).1 = (Next 1 * 32767) % 1999999973 ∧
     (ForkState (ForkState 1).2).1 ≠ (ForkState 1).1) :=
  ⟨le_refl 1, by decide,
    forkState_advances_once_and_children_differ 1 (le_refl 1) (by decide)⟩

/-- C3 counterexample: the seed -2 is negative but not the sentinel -1; the
truncating `%` leaves it negative, and the `CHECK_GE(state, 0)` aborts instead
of correcting it, refuting the claim that every 64-bit seed is normalized into
`[1, modulus-1]`. -/
theorem normalizeState_neg_two_fatal : NormalizeState 0 (-2) = none := by decide

/-- Truncating remainder of a non-positive dividend is non-positive: the sign
of `Int.tmod` follows the dividend. -/
theorem tmod_nonpos_of_nonpos {a : Int} (b : Int) (ha : a ≤ 0) : a.tmod b ≤ 0 := by
  have hflip : a.tmod b = -((-a).tmod b) := by
    rw [Int.tmod_def, Int.tmod_def, Int.neg_tdiv]
    ring
  have hnn : 0 ≤ (-a).tmod b := Int.tmod_nonneg b (by omega)
  omega

/-- C3 (amended): every non-negative seed, and the sentinel seed -1 (for any
host entropy draw), is normalized into `[1, modulus-1]`; `NormalizeState 0`
returns exactly 1 (and `NormalizeState (-1)` never returns 0, by the range).
Negative seeds other than -1 are not corrected into range in general: the
truncating `%` leaves their remainder non-positive, so they hit the fatal
non-negativity check — except the exact multiples of the modulus, whose
remainder 0 is corrected to 1. -/
theorem normalizeState_in_range (entropy : Nat) (state : Int) :
    ((0 ≤ state ∨ state = -1) →
      ∃ r, NormalizeState entropy state = some r ∧ 1 ≤ r ∧ r ≤ modulus - 1) ∧
    NormalizeState entropy 0 = some 1 ∧
    (state < 0 → state ≠ -1 →
      NormalizeState entropy state
        = if state.tmod modulus = 0 then some 1 else none) := by
  refine ⟨?_, ?_, ?_⟩
  · intro h
    unfold NormalizeState GetDeviceRandomValue
    rcases h with hpos | hneg
    · have hne : state ≠ -1 := by omega
      simp only [hne, if_false]
      have hm : (0 : Int) ≤ 2147483647 := by norm_num
      have hdef : state.tmod modulus = state % 2147483647 := by
        simp only [modulus]
        exact Int.tmod_eq_emod hpos hm
      have hlow : 0 ≤ state % 2147483647 := Int.emod_nonneg _ (by norm_num)
      have hhigh : state % 2147483647 < 2147483647 := Int.emod_lt_of_pos _ (by norm_num)
      rw [hdef]
      by_cases h0 : state % 2147483647 = 0
      · refine ⟨1, ?_, ?_, ?_⟩
        · simp [h0, modulus]
        · omega
        · simp only [modulus]; omega
      · refine ⟨state % 2147483647, ?_, by omega, ?_⟩
        · simp only [h0, if_false, modulus]
          norm_num
          omega
        · simp only [modulus]; omega
    · subst hneg
      simp only [if_true]
      have hlow : 0 ≤ (entropy : Int) % modulus :=
        Int.emod_nonneg _ (by simp only [modulus]; norm_num)
      have hhigh : (entropy : Int) % modulus < 2147483647 := by
        have := Int.emod_lt_of_pos (entropy : Int) (b := modulus)
          (by simp only [modulus]; norm_num)
        simpa [modulus] using this
      by_cases h0 : (entropy : Int) % modulus = 0
      · refine ⟨1, ?_, by omega, ?_⟩
        · simp [h0]
        · simp only [modulus]; omega
      · refine ⟨(entropy : Int) % modulus, ?_, by omega, ?_⟩
        · simp only [h0, if_false]
          norm_num
          omega
        · simp only [modulus]; omega
  · have hne : (0 : Int) ≠ -1 := by norm_num
    unfold NormalizeState
    simp only [hne, if_false]
    rw [Int.zero_tmod]
    norm_num
  · intro hneg hne1
    unfold NormalizeState
    simp only [hne1, if_false]
    by_cases h0 : state.tmod modulus = 0
    · simp [h0]
    · have hle : state.tmod modulus ≤ 0 := tmod_nonpos_of_nonpos modulus (by omega)
      have hlt : state.tmod modulus < 0 := by omega
      rw [if_neg h0, if_neg h0, if_neg (by omega : ¬ (0 : Int) ≤ state.tmod modulus)]

/-- Witness for the amended C3 theorem at the concrete seeds 5, 0 and
-2147483647: the last is a negative exact multiple of the modulus, whose
remainder 0 is corrected to 1 rather than aborting. -/
theorem normalizeState_in_range_witness :
    (∃ r, NormalizeState 3 5 = some r ∧ 1 ≤ r ∧ r ≤ modulus - 1) ∧
    NormalizeState 3 0 = some 1 ∧
    NormalizeState 0 (-2147483647) = some 1 :=
  ⟨(normalizeState_in_range 3 5).1 (Or.inl (by norm_num)),
   (normalizeState_in_range 3 0).2.1,
   ((normalizeState_in_range 0 (-2147483647)).2.2 (by norm_num) (by norm_num)).trans
     (by decide)⟩

end EngineTheorems

/-! ## Invariant lemmas for the weight table -/

section WeightTable

variable {Sched : Type}

theorem chained_le (nums : Nat → Nat) :
    ∀ (tbl : List (Nat × Nat)) (a w : Nat), Chained nums a tbl w → a ≤ w
  | [], a, w, h => le_of_eq h
  | (k, i) :: rest, a, w, h => by
    obtain ⟨hk, hrest⟩ := h
    have := chained_le nums rest (k + nums i) w hrest
    omega

theorem chained_sum (nums : Nat → Nat) :
    ∀ (tbl : List (Nat × Nat)) (a w : Nat), Chained nums a tbl w →
    a + (tbl.map (fun e => nums e.2)).sum = w
  | [], a, w, h => by simpa using h
  | (k, i) :: rest, a, w, h => by
    obtain ⟨hk, hrest⟩ := h
    have := chained_sum nums rest (k + nums i) w hrest
    simp only [List.map_cons, List.sum_cons]
    omega

theorem mapInsert_mem :
    ∀ (tbl : List (Nat × Nat)) (k v : Nat) (e : Nat × Nat),
    e ∈ mapInsert tbl k v → e ∈ tbl ∨ e = (k, v)
  | [], k, v, e, h => by
    simp only [mapInsert, List.mem_singleton] at h
    exact Or.inr h
  | (k', v') :: t, k, v, e, h => by
    by_cases hlt : k < k'
    · simp only [mapInsert, if_pos hlt, List.mem_cons] at h
      rcases h with h | h | h
      · exact Or.inr h
      · exact Or.inl (h ▸ List.mem_cons_self _ _)
      · exact Or.inl (List.mem_cons_of_mem _ h)
    · by_cases heq : k = k'
      · simp only [mapInsert, if_neg hlt, if_pos heq, List.mem_cons] at h
        rcases h with h | h
        · exact Or.inr h
        · exact Or.inl (List.mem_cons_of_mem _ h)
      · simp only [mapInsert, if_neg hlt, if_neg heq, List.mem_cons] at h
        rcases h with h | h
        · exact Or.inl (h ▸ List.mem_cons_self _ _)
        · rcases mapInsert_mem t k v e h with h2 | h2
          · exact Or.inl (List.mem_cons_of_mem _ h2)
          · exact Or.inr h2

theorem mapInsert_ne_nil :
    ∀ (tbl : List (Nat × Nat)) (k v : Nat), mapInsert tbl k v ≠ []
  | [], k, v => by simp [mapInsert]
  | (k', v') :: t, k, v => by
    simp only [mapInsert]
    split
    · simp
    · split
      · simp
      · simp

/-- Inserting at the running offset `w` extends the partition by the new
rule's weight.  A zero-weight trailing entry at key `w` is overwritten, as
`std::map::operator[]` does. -/
theorem chained_insert (nums : Nat → Nat) :
    ∀ (tbl : List (Nat × Nat)) (a w v : Nat), Chained nums a tbl w → SortedKeys tbl →
    Chained nums a (mapInsert tbl w v) (w + nums v) ∧ SortedKeys (mapInsert tbl w v)
  | [], a, w, v, hch, _hs => by
    simp only [Chained] at hch
    subst hch
    refine ⟨⟨rfl, rfl⟩, ?_⟩
    simp [SortedKeys, mapInsert]
  | (k, j) :: rest, a, w, v, hch, hs => by
    obtain ⟨hk, hrest⟩ := hch
    obtain ⟨hs1, hs2⟩ := List.pairwise_cons.mp hs
    have hkw : k + nums j ≤ w := chained_le nums rest (k + nums j) w hrest
    simp only [mapInsert]
    split
    · omega
    · split
      · -- w = k: the existing entry is a zero-weight trailer; replace it.
        rename_i hlt heq
        have hz : nums j = 0 := by omega
        have hrestnil : rest = [] := by
          cases rest with
          | nil => rfl
          | cons e rest2 =>
            obtain ⟨hk2, _⟩ := hrest
            have := hs1 e (List.mem_cons_self _ _)
            omega
        subst hrestnil
        simp only [Chained] at hrest
        refine ⟨⟨by omega, ?_⟩, ?_⟩
        · simp only [Chained]
        · simp [SortedKeys]
      · -- k < w: keep the head and insert into the tail.
        rename_i hlt hne
        have hklt : k < w := by omega
        obtain ⟨ih1, ih2⟩ := chained_insert nums rest (k + nums j) w v hrest hs2
        refine ⟨⟨hk, ih1⟩, ?_⟩
        refine List.pairwise_cons.mpr ⟨?_, ih2⟩
        intro e he
        rcases mapInsert_mem rest w v e he with h2 | h2
        · exact hs1 e h2
        · subst h2
          exact hklt

theorem mutateScanGo_chained (ruleOf : Nat → AutoGenRule Sched) (sched : Sched) :
    ∀ (rules : List Nat) (w : Nat) (tbl : List (Nat × Nat)),
    Chained (fun j => (ruleOf j).numberApplicable sched) 0 tbl w → SortedKeys tbl →
    Chained (fun j => (ruleOf j).numberApplicable sched) 0
        (mutateScanGo ruleOf sched rules w tbl).table
        (mutateScanGo ruleOf sched rules w tbl).curWeight ∧
    SortedKeys (mutateScanGo ruleOf sched rules w tbl).table
  | [], w, tbl, hch, hs => ⟨hch, hs⟩
  | i :: rest, w, tbl, hch, hs => by
    have hins := chained_insert (fun j => (ruleOf j).numberApplicable sched)
      tbl 0 w i hch hs
    simp only [mutateScanGo]
    cases hinit : (ruleOf i).init sched with
    | kCannotApply =>
      simpa using mutateScanGo_chained ruleOf sched rest w tbl hch hs
    | kApply =>
      simpa using mutateScanGo_chained ruleOf sched rest
        (w + (ruleOf i).numberApplicable sched) (mapInsert tbl w i) hins.1 hins.2
    | kApplyAndSkipThisRule =>
      simpa using mutateScanGo_chained ruleOf sched rest
        (w + (ruleOf i).numberApplicable sched) (mapInsert tbl w i) hins.1 hins.2
    | kApplyAndSkipAllRules =>
      simpa using hins

theorem mutateScanGo_table_mem (ruleOf : Nat → AutoGenRule Sched) (sched : Sched) :
    ∀ (rules : List Nat) (w : Nat) (tbl : List (Nat × Nat)) (e : Nat × Nat),
    e ∈ (mutateScanGo ruleOf sched rules w tbl).table →
    e ∈ tbl ∨ (e.2 ∈ rules ∧ (ruleOf e.2).init sched ≠ .kCannotApply)
  | [], w, tbl, e, h => Or.inl h
  | i :: rest, w, tbl, e, h => by
    simp only [mutateScanGo] at h
    cases hinit : (ruleOf i).init sched with
    | kCannotApply =>
      rw [hinit] at h
      simp only at h
      rcases mutateScanGo_table_mem ruleOf sched rest w tbl e h with h2 | h2
      · exact Or.inl h2
      · exact Or.inr ⟨List.mem_cons_of_mem _ h2.1, h2.2⟩
    | kApply =>
      rw [hinit] at h
      simp only at h
      rcases mutateScanGo_table_mem ruleOf sched rest _ _ e h with h2 | h2
      · rcases mapInsert_mem tbl w i e h2 with h3 | h3
        · exact Or.inl h3
        · refine Or.inr ⟨?_, ?_⟩
          · rw [h3]
            exact List.mem_cons_self _ _
          · rw [h3]
            simp [hinit]
      · exact Or.inr ⟨List.mem_cons_of_mem _ h2.1, h2.2⟩
    | kApplyAndSkipThisRule =>
      rw [hinit] at h
      simp only at h
      rcases mutateScanGo_table_mem ruleOf sched rest _ _ e h with h2 | h2
      · rcases mapInsert_mem tbl w i e h2 with h3 | h3
        · exact Or.inl h3
        · refine Or.inr ⟨?_, ?_⟩
          · rw [h3]
            exact List.mem_cons_self _ _
          · rw [h3]
            simp [hinit]
      · exact Or.inr ⟨List.mem_cons_of_mem _ h2.1, h2.2⟩
    | kApplyAndSkipAllRules =>
      rw [hinit] at h
      simp only at h
      rcases mapInsert_mem tbl w i e h with h3 | h3
      · exact Or.inl h3
      · refine Or.inr ⟨?_, ?_⟩
        · rw [h3]
          exact List.mem_cons_self _ _
        · rw [h3]
          simp [hinit]

theorem mutateScanGo_rules_sublist (ruleOf : Nat → AutoGenRule Sched) (sched : Sched) :
    ∀ (rules : List Nat) (w : Nat) (tbl : List (Nat × Nat)),
    (mutateScanGo ruleOf sched rules w tbl).rules.Sublist rules
  | [], w, tbl => by simp [mutateScanGo]
  | i :: rest, w, tbl => by
    simp only [mutateScanGo]
    cases hinit : (ruleOf i).init sched with
    | kCannotApply =>
      simp only
      split
      · exact List.nil_sublist _
      · exact List.Sublist.cons₂ i (mutateScanGo_rules_sublist ruleOf sched rest w tbl)
    | kApply =>
      simp only
      split
      · exact List.nil_sublist _
      · exact List.Sublist.cons₂ i (mutateScanGo_rules_sublist ruleOf sched rest _ _)
    | kApplyAndSkipThisRule =>
      exact List.Sublist.cons i (mutateScanGo_rules_sublist ruleOf sched rest _ _)
    | kApplyAndSkipAllRules =>
      exact List.nil_sublist _

theorem mutateScanGo_all_cannot (ruleOf : Nat → AutoGenRule Sched) (sched : Sched) :
    ∀ (rules : List Nat) (w : Nat) (tbl : List (Nat × Nat)),
    (∀ i ∈ rules, (ruleOf i).init sched = .kCannotApply) →
    mutateScanGo ruleOf sched rules w tbl = ⟨tbl, w, rules, false⟩
  | [], w, tbl, _h => rfl
  | i :: rest, w, tbl, h => by
    have hinit : (ruleOf i).init sched = .kCannotApply := h i (List.mem_cons_self _ _)
    simp only [mutateScanGo, hinit]
    rw [mutateScanGo_all_cannot ruleOf sched rest w tbl
      (fun j hj => h j (List.mem_cons_of_mem _ hj))]
    rfl

theorem mutateScanGo_table_eq_nil (ruleOf : Nat → AutoGenRule Sched) (sched : Sched) :
    ∀ (rules : List Nat) (w : Nat) (tbl : List (Nat × Nat)),
    (mutateScanGo ruleOf sched rules w tbl).table = [] →
    tbl = [] ∧ ∀ i ∈ rules, (ruleOf i).init sched = .kCannotApply
  | [], w, tbl, h => ⟨h, by simp⟩
  | i :: rest, w, tbl, h => by
    simp only [mutateScanGo] at h
    cases hinit : (ruleOf i).init sched with
    | kCannotApply =>
      rw [hinit] at h
      simp only at h
      obtain ⟨h1, h2⟩ := mutateScanGo_table_eq_nil ruleOf sched rest w tbl h
      refine ⟨h1, ?_⟩
      intro j hj
      rcases List.mem_cons.mp hj with hj | hj
      · rw [hj]; exact hinit
      · exact h2 j hj
    | kApply =>
      rw [hinit] at h
      simp only at h
      obtain ⟨h1, _⟩ := mutateScanGo_table_eq_nil ruleOf sched rest _ _ h
      exact absurd h1 (mapInsert_ne_nil tbl w i)
    | kApplyAndSkipThisRule =>
      rw [hinit] at h
      simp only at h
      obtain ⟨h1, _⟩ := mutateScanGo_table_eq_nil ruleOf sched rest _ _ h
      exact absurd h1 (mapInsert_ne_nil tbl w i)
    | kApplyAndSkipAllRules =>
      rw [hinit] at h
      simp only at h
      exact absurd h (mapInsert_ne_nil tbl w i)

theorem mutateScanGo_weight_of_all_zero (ruleOf : Nat → AutoGenRule Sched) (sched : Sched) :
    ∀ (rules : List Nat) (w : Nat) (tbl : List (Nat × Nat)),
    (∀ i ∈ rules, (ruleOf i).init sched ≠ .kCannotApply →
        (ruleOf i).numberApplicable sched = 0) →
    (mutateScanGo ruleOf sched rules w tbl).curWeight = w
  | [], w, tbl, _h => rfl
  | i :: rest, w, tbl, h => by
    have hrest := fun j hj => h j (List.mem_cons_of_mem _ hj)
    simp only [mutateScanGo]
    cases hinit : (ruleOf i).init sched with
    | kCannotApply =>
      simpa using mutateScanGo_weight_of_all_zero ruleOf sched rest w tbl hrest
    | kApply =>
      have hz : (ruleOf i).numberApplicable sched = 0 :=
        h i (List.mem_cons_self _ _) (by simp [hinit])
      simpa [hz] using mutateScanGo_weight_of_all_zero ruleOf sched rest
        (w + (ruleOf i).numberApplicable sched) (mapInsert tbl w i) hrest
    | kApplyAndSkipThisRule =>
      have hz : (ruleOf i).numberApplicable sched = 0 :=
        h i (List.mem_cons_self _ _) (by simp [hinit])
      simpa [hz] using mutateScanGo_weight_of_all_zero ruleOf sched rest
        (w + (ruleOf i).numberApplicable sched) (mapInsert tbl w i) hrest
    | kApplyAndSkipAllRules =>
      have hz : (ruleOf i).numberApplicable sched = 0 :=
        h i (List.mem_cons_self _ _) (by simp [hinit])
      simp [hz]

theorem selectGo_mem :
    ∀ (tbl : List (Nat × Nat)) (sample : Nat) (prev : Option (Nat × Nat)) (e : Nat × Nat),
    selectGo sample prev tbl = some e → e ∈ tbl ∨ prev = some e
  | [], sample, prev, e, h => by simp [selectGo] at h
  | (k, v) :: rest, sample, prev, e, h => by
    simp only [selectGo] at h
    split at h
    · split at h
      · exact Or.inr h
      · exact Or.inl (by rw [Option.some_inj.mp h]; exact List.mem_cons_self _ _)
    · rcases selectGo_mem rest sample (some (k, v)) e h with h2 | h2
      · exact Or.inl (List.mem_cons_of_mem _ h2)
      · exact Or.inl (by rw [Option.some_inj.mp h2]; exact List.mem_cons_self _ _)

theorem selectGo_spec (nums : Nat → Nat) :
    ∀ (tbl : List (Nat × Nat)) (a w sample : Nat) (prev : Option (Nat × Nat)) (e : Nat × Nat),
    Chained nums a tbl w → SortedKeys tbl → sample < w →
    (∀ pk pi, prev = some (pk, pi) → pk ≤ sample ∧ pk + nums pi = a) →
    selectGo sample prev tbl = some e →
    e.1 ≤ sample ∧ sample < e.1 + nums e.2
  | [], a, w, sample, prev, e, hch, _hs, hsw, _hprev, h => by simp [selectGo] at h
  | (k, j) :: rest, a, w, sample, prev, e, hch, hs, hsw, hprev, h => by
    obtain ⟨hk, hrest⟩ := hch
    obtain ⟨hs1, hs2⟩ := List.pairwise_cons.mp hs
    simp only [selectGo] at h
    split at h
    · split at h
      · -- lower_bound found a strictly greater key: step back to prev.
        obtain ⟨hp1, hp2⟩ := hprev e.1 e.2 (by rw [← h])
        rename_i hle hlt
        omega
      · -- the key equals the sample: this entry is selected.
        rename_i hle hlt
        have he : e = (k, j) := (Option.some_inj.mp h).symm
        subst he
        simp only
        have hknz : 1 ≤ nums j ∨ nums j = 0 := by omega
        rcases hknz with hnz | hz
        · omega
        · -- a zero-weight entry here would force the table to end at the sample.
          exfalso
          cases rest with
          | nil =>
            simp only [Chained] at hrest
            omega
          | cons e2 rest2 =>
            obtain ⟨hk2, _⟩ := hrest
            have := hs1 e2 (List.mem_cons_self _ _)
            omega
    · -- the key is below the sample: recurse with this entry as predecessor.
      rename_i hgt
      exact selectGo_spec nums rest (k + nums j) w sample (some (k, j)) e hrest hs2 hsw
        (by intro pk pi hpk; injection hpk with hpk; injection hpk with h1 h2; subst h1; subst h2; omega)
        h

end WeightTable

/-! ## Claims about `RandomScheduleMutate` -/

section MutateClaims

variable {Sched : Type}

/-- Whatever branch `mutateSample` takes, a returned state's rule list is the
scan's surviving rule list. -/
theorem mutateSample_rules_eq (ruleOf : Nat → AutoGenRule Sched) (r : Nat)
    (state : SearchState Sched) (scan : MutateScan) (s' : SearchState Sched)
    (sel : Option (Nat × Nat))
    (h : mutateSample ruleOf r state scan = some (s', sel)) :
    s'.applicable_rules = scan.rules := by
  unfold mutateSample at h
  by_cases h1 : scan.table.isEmpty
  · rw [if_pos h1] at h
    have hp := Option.some_inj.mp h
    have hfst := congrArg Prod.fst hp
    simp only at hfst
    rw [← hfst]
  · rw [if_neg h1] at h
    by_cases h2 : scan.curWeight = 0
    · rw [if_pos h2] at h
      exact absurd h (by simp)
    · rw [if_neg h2] at h
      cases hsel : selectGo (r % scan.curWeight) none scan.table with
      | none =>
        rw [hsel] at h
        exact absurd h (by simp)
      | some kv =>
        obtain ⟨k, i⟩ := kv
        rw [hsel] at h
        simp only at h
        have hp := Option.some_inj.mp h
        have hfst := congrArg Prod.fst hp
        simp only at hfst
        rw [← hfst]

/-- A sampled round comes from the weight-table lookup on a positive total
weight. -/
theorem mutateSample_sampled (ruleOf : Nat → AutoGenRule Sched) (r : Nat)
    (state : SearchState Sched) (scan : MutateScan) (s' : SearchState Sched)
    (i li : Nat)
    (h : mutateSample ruleOf r state scan = some (s', some (i, li))) :
    scan.curWeight ≠ 0 ∧
    ∃ k, selectGo (r % scan.curWeight) none scan.table = some (k, i) ∧
      li = r % scan.curWeight - k := by
  unfold mutateSample at h
  by_cases h1 : scan.table.isEmpty
  · rw [if_pos h1] at h
    have hp := Option.some_inj.mp h
    have hsnd := congrArg Prod.snd hp
    simp at hsnd
  · rw [if_neg h1] at h
    by_cases h2 : scan.curWeight = 0
    · rw [if_pos h2] at h
      exact absurd h (by simp)
    · rw [if_neg h2] at h
      cases hsel : selectGo (r % scan.curWeight) none scan.table with
      | none =>
        rw [hsel] at h
        exact absurd h (by simp)
      | some kv =>
        obtain ⟨k, i'⟩ := kv
        rw [hsel] at h
        simp only at h
        have hp := Option.some_inj.mp h
        have hsnd := congrArg Prod.snd hp
        simp only at hsnd
        have hi : i' = i := by
          have := congrArg (fun o => Option.map Prod.fst o) hsnd
          simpa using this
        have hli : li = r % scan.curWeight - k := by
          have := congrArg (fun o => Option.map Prod.snd o) hsnd
          simpa using this.symm
        subst hi
        -- `cases hsel :` already replaced the scrutinee by `some (k, i')` in the goal.
        exact ⟨h2, k, rfl, hli⟩

/-- C7: when every applicable rule's `Init` reports cannot-apply, the weight
table stays empty and `RandomScheduleMutate` returns the input state unchanged
(same schedule, same predicted cost, same rule list), as a normal outcome. -/
theorem randomScheduleMutate_unchanged_when_no_rule (ruleOf : Nat → AutoGenRule Sched)
    (r : Nat) (state : SearchState Sched)
    (h : ∀ i ∈ state.applicable_rules, (ruleOf i).init state.ir_schedule = .kCannotApply) :
    RandomScheduleMutate ruleOf r state = some (state, none) := by
  unfold RandomScheduleMutate
  rw [mutateScanGo_all_cannot ruleOf state.ir_schedule state.applicable_rules 0 [] h]
  rfl

/-- Witness for C7 at a concrete two-rule state. -/
theorem randomScheduleMutate_unchanged_when_no_rule_witness :
    (∀ i ∈ (SearchState.mk () NOT_INIT_COST [0, 1]).applicable_rules,
      ((fun _ => ruleCannot) i).init (SearchState.mk () NOT_INIT_COST [0, 1]).ir_schedule
        = .kCannotApply) ∧
    RandomScheduleMutate (fun _ => ruleCannot) 7 (SearchState.mk () NOT_INIT_COST [0, 1])
      = some (SearchState.mk () NOT_INIT_COST [0, 1], none) :=
  ⟨by decide,
    randomScheduleMutate_unchanged_when_no_rule (fun _ => ruleCannot) 7
      (SearchState.mk () NOT_INIT_COST [0, 1]) (by decide)⟩

/-- C6: the rule list of any state returned by `RandomScheduleMutate` is a
sublist of the input state's rule list (rules are only erased, singly or
wholesale, never added or reordered); consequently a state whose rule list is
a sublist of the master registry keeps that property. -/
theorem randomScheduleMutate_rules_sublist (ruleOf : Nat → AutoGenRule Sched)
    (r : Nat) (state s' : SearchState Sched) (sel : Option (Nat × Nat))
    (h : RandomScheduleMutate ruleOf r state = some (s', sel)) :
    s'.applicable_rules.Sublist state.applicable_rules ∧
    ∀ registry : List Nat, state.applicable_rules.Sublist registry →
      s'.applicable_rules.Sublist registry := by
  have hrules := mutateSample_rules_eq ruleOf r state _ s' sel h
  have hsub : s'.applicable_rules.Sublist state.applicable_rules := by
    rw [hrules]
    exact mutateScanGo_rules_sublist ruleOf state.ir_schedule state.applicable_rules 0 []
  exact ⟨hsub, fun _registry hreg => hsub.trans hreg⟩

/-- Witness for C6: a self-excluding rule is erased, leaving a sublist. -/
theorem randomScheduleMutate_rules_sublist_witness :
    RandomScheduleMutate (fun _ => ruleSkipSelf) 0 (SearchState.mk () NOT_INIT_COST [0])
      = some (SearchState.mk () NOT_INIT_COST [], some (0, 0)) ∧
    (List.Sublist [] [0] ∧
     ∀ registry : List Nat, List.Sublist [0] registry → List.Sublist [] registry) :=
  ⟨by decide,
    randomScheduleMutate_rules_sublist (fun _ => ruleSkipSelf) 0
      (SearchState.mk () NOT_INIT_COST [0]) (SearchState.mk () NOT_INIT_COST [])
      (some (0, 0)) (by decide)⟩

/-- C1 counterexample: a round in which a rule's `Init` reports applicable but
with zero applicable positions puts an entry in the weight table while
`cur_weight` stays 0, so `rand() % cur_weight` is a modulo by zero and no rule
is ever selected — the round does not complete as the claim asserts. -/
theorem randomScheduleMutate_select_counterexample :
    ((ruleZeroWeight.init () ≠ .kCannotApply) ∧
      0 ∈ (SearchState.mk () NOT_INIT_COST [0]).applicable_rules) ∧
    RandomScheduleMutate (fun _ => ruleZeroWeight) 0 (SearchState.mk () NOT_INIT_COST [0])
      = none := by
  constructor
  · constructor
    · decide
    · decide
  · decide

/-- C1 (amended): the weights in the final weight table always sum to
`cur_weight`, and whenever the sampling step completes (in particular
`cur_weight > 0` and the table lookup succeeds), the selected rule is one
whose `Init` did not report cannot-apply in this round, it comes from the
state's applicable list, and the local index handed to `Apply` is strictly
below that rule's `NumberApplicable()`. -/
theorem randomScheduleMutate_selection_sound (ruleOf : Nat → AutoGenRule Sched)
    (r : Nat) (state : SearchState Sched) :
    (((mutateScanGo ruleOf state.ir_schedule state.applicable_rules 0 []).table.map
        (fun e => (ruleOf e.2).numberApplicable state.ir_schedule)).sum
      = (mutateScanGo ruleOf state.ir_schedule state.applicable_rules 0 []).curWeight)
    ∧ ∀ (s' : SearchState Sched) (i li : Nat),
        RandomScheduleMutate ruleOf r state = some (s', some (i, li)) →
        (ruleOf i).init state.ir_schedule ≠ .kCannotApply ∧
        i ∈ state.applicable_rules ∧
        li < (ruleOf i).numberApplicable state.ir_schedule := by
  have hch0 : Chained (fun j => (ruleOf j).numberApplicable state.ir_schedule) 0 [] 0 := rfl
  have hs0 : SortedKeys ([] : List (Nat × Nat)) := List.Pairwise.nil
  obtain ⟨hch, hs⟩ := mutateScanGo_chained ruleOf state.ir_schedule
    state.applicable_rules 0 [] hch0 hs0
  constructor
  · have hsum := chained_sum (fun j => (ruleOf j).numberApplicable state.ir_schedule)
      (mutateScanGo ruleOf state.ir_schedule state.applicable_rules 0 []).table 0
      (mutateScanGo ruleOf state.ir_schedule state.applicable_rules 0 []).curWeight hch
    simpa using hsum
  · intro s' i li h
    obtain ⟨hw, k, hsel, hli⟩ := mutateSample_sampled ruleOf r state _ s' i li h
    have hmem : (k, i) ∈ (mutateScanGo ruleOf state.ir_schedule
        state.applicable_rules 0 []).table := by
      rcases selectGo_mem _ _ _ _ hsel with hm | hm
      · exact hm
      · exact absurd hm (by simp)
    have htm := mutateScanGo_table_mem ruleOf state.ir_schedule
      state.applicable_rules 0 [] (k, i) hmem
    rcases htm with htm | htm
    · exact absurd htm (List.not_mem_nil _)
    · have hsample : r % (mutateScanGo ruleOf state.ir_schedule
          state.applicable_rules 0 []).curWeight
          < (mutateScanGo ruleOf state.ir_schedule state.applicable_rules 0 []).curWeight :=
        Nat.mod_lt _ (Nat.pos_of_ne_zero hw)
      have hspec := selectGo_spec (fun j => (ruleOf j).numberApplicable state.ir_schedule)
        (mutateScanGo ruleOf state.ir_schedule state.applicable_rules 0 []).table 0
        (mutateScanGo ruleOf state.ir_schedule state.applicable_rules 0 []).curWeight
        (r % (mutateScanGo ruleOf state.ir_schedule state.applicable_rules 0 []).curWeight)
        none (k, i) hch hs hsample (by intro pk pi hpk; exact absurd hpk (by simp)) hsel
      refine ⟨htm.2, htm.1, ?_⟩
      simp only at hspec
      omega

/-- Witness for the amended C1 at a two-rule state where the draw selects the
second rule. -/
theorem randomScheduleMutate_selection_sound_witness :
    (((mutateScanGo (fun _ => ruleUnitWeight) () [0, 1] 0 []).table.map
        (fun e => ((fun _ => ruleUnitWeight) e.2).numberApplicable ())).sum
      = (mutateScanGo (fun _ => ruleUnitWeight) () [0, 1] 0 []).curWeight)
    ∧ (ruleUnitWeight.init () ≠ .kCannotApply ∧
       1 ∈ [0, 1] ∧ 0 < ruleUnitWeight.numberApplicable ()) := by
  have h := randomScheduleMutate_selection_sound (fun _ => ruleUnitWeight) 1
    (SearchState.mk () NOT_INIT_COST [0, 1])
  exact ⟨h.1, h.2 (SearchState.mk () NOT_INIT_COST [0, 1]) 1 0 (by decide)⟩

/-- C9: the sampling expression is well-defined only when some applicable rule
reports at least one position: if at least one rule is applicable but every
applicable rule reports zero positions, the weight table is non-empty while
`cur_weight = 0` and the round hits the modulo-by-zero branch; moreover a
zero-weight rule can never be the sampled rule. -/
theorem randomScheduleMutate_zero_weight_precondition (ruleOf : Nat → AutoGenRule Sched)
    (r : Nat) (state : SearchState Sched) :
    ((∃ i ∈ state.applicable_rules, (ruleOf i).init state.ir_schedule ≠ .kCannotApply) →
     (∀ i ∈ state.applicable_rules, (ruleOf i).init state.ir_schedule ≠ .kCannotApply →
        (ruleOf i).numberApplicable state.ir_schedule = 0) →
     (mutateScanGo ruleOf state.ir_schedule state.applicable_rules 0 []).table ≠ [] ∧
     (mutateScanGo ruleOf state.ir_schedule state.applicable_rules 0 []).curWeight = 0 ∧
     RandomScheduleMutate ruleOf r state = none)
    ∧ ∀ (s' : SearchState Sched) (i li : Nat),
        RandomScheduleMutate ruleOf r state = some (s', some (i, li)) →
        1 ≤ (ruleOf i).numberApplicable state.ir_schedule := by
  constructor
  · intro hex hzero
    have htne : (mutateScanGo ruleOf state.ir_schedule
        state.applicable_rules 0 []).table ≠ [] := by
      intro hnil
      obtain ⟨_, hall⟩ := mutateScanGo_table_eq_nil ruleOf state.ir_schedule
        state.applicable_rules 0 [] hnil
      obtain ⟨i, hi, hne⟩ := hex
      exact hne (hall i hi)
    have hw0 : (mutateScanGo ruleOf state.ir_schedule
        state.applicable_rules 0 []).curWeight = 0 :=
      mutateScanGo_weight_of_all_zero ruleOf state.ir_schedule
        state.applicable_rules 0 [] hzero
    refine ⟨htne, hw0, ?_⟩
    unfold RandomScheduleMutate mutateSample
    rw [if_neg (by simpa [List.isEmpty_iff] using htne), if_pos hw0]
  · intro s' i li h
    have := (randomScheduleMutate_selection_sound ruleOf r state).2 s' i li h
    omega

/-- Witness for C9: the zero-weight round hits the modulo by zero, and a
successful sample always has positive weight. -/
theorem randomScheduleMutate_zero_weight_precondition_witness :
    ((mutateScanGo (fun _ => ruleZeroWeight) () [0] 0 []).table ≠ [] ∧
     (mutateScanGo (fun _ => ruleZeroWeight) () [0] 0 []).curWeight = 0 ∧
     RandomScheduleMutate (fun _ => ruleZeroWeight) 5 (SearchState.mk () NOT_INIT_COST [0])
       = none)
    ∧ 1 ≤ ruleUnitWeight.numberApplicable () := by
  constructor
  · exact (randomScheduleMutate_zero_weight_precondition (fun _ => ruleZeroWeight) 5
      (SearchState.mk () NOT_INIT_COST [0])).1
      ⟨0, by decide, by decide⟩ (by decide)
  · exact (randomScheduleMutate_zero_weight_precondition (fun _ => ruleUnitWeight) 0
      (SearchState.mk () NOT_INIT_COST [0])).2
      (SearchState.mk () NOT_INIT_COST [0]) 0 0 (by decide)

end MutateClaims

/-! ## The buffer-swap semantics of the pruned generators (C10, C4, C5) -/

section FrontierClaims

variable {Sched : Type}

theorem randomFrontierSeq_ne_nil (ruleOf : Nat → AutoGenRule Sched)
    (getAllBlocks : Sched → List String) (depth : Nat) (stepDraws : Nat → Nat)
    (ruleSeqs : Nat → List Nat) (pruneDraws : Nat → Rat) :
    ∀ (bs : List String) (total si ri pi : Nat) (cur : List (SearchState Sched)),
    randomFrontierSeq ruleOf getAllBlocks depth stepDraws ruleSeqs pruneDraws
      bs total si ri pi cur ≠ []
  | [], _, _, _, _, _ => by simp [randomFrontierSeq]
  | b :: bs, total, si, ri, pi, cur => by
    simp only [randomFrontierSeq]
    split
    · simp
    · simp

/-- The two-buffer loop of the rule-pruned generator returns the frontier
reached after all but the last block: the final `*p_states_next` is the
buffer holding the frontier from before the last expansion. -/
theorem sketchLoop_eq_frontierFold (expand : String → SearchState Sched → List (SearchState Sched)) :
    ∀ (bs : List String) (cur next : List (SearchState Sched)), bs ≠ [] →
    sketchLoop expand bs cur next = frontierFold expand bs.dropLast cur
  | [], _, _, h => absurd rfl h
  | [b], cur, next, _ => rfl
  | b :: b2 :: bs, cur, next, _ => by
    show sketchLoop expand (b2 :: bs) (cur.flatMap (expand b)) cur = _
    rw [sketchLoop_eq_frontierFold expand (b2 :: bs) (cur.flatMap (expand b)) cur (by simp)]
    rfl

/-- The two-buffer loop of the random-pruned generator returns the
next-to-last frontier of the frontier sequence (or the initial next-buffer
when no block is processed). -/
theorem randomSketchLoop_eq_frontierSeq (ruleOf : Nat → AutoGenRule Sched)
    (getAllBlocks : Sched → List String) (depth : Nat) (stepDraws : Nat → Nat)
    (ruleSeqs : Nat → List Nat) (pruneDraws : Nat → Rat) :
    ∀ (bs : List String) (total si ri pi : Nat)
      (cur next : List (SearchState Sched)),
    randomSketchLoop ruleOf getAllBlocks depth stepDraws ruleSeqs pruneDraws
        bs total si ri pi cur next
      = ((randomFrontierSeq ruleOf getAllBlocks depth stepDraws ruleSeqs pruneDraws
          bs total si ri pi cur).dropLast).getLastD next
  | [], _, _, _, _, _, next => rfl
  | b :: bs, total, si, ri, pi, cur, next => by
    simp only [randomSketchLoop, randomFrontierSeq]
    split
    · rw [randomSketchLoop_eq_frontierSeq ruleOf getAllBlocks depth stepDraws ruleSeqs
        pruneDraws bs _ _ _ _ _ cur]
      rw [List.dropLast_cons_of_ne_nil (randomFrontierSeq_ne_nil _ _ _ _ _ _ _ _ _ _ _ _)]
      rw [List.getLastD_cons]
    · rfl

/-- C10: both pruned generators return the contents of `*p_states_next` after
the final swap — the frontier from before the last processed block's
expansion; in particular an empty block list yields an empty result for both
generators, and a one-block program makes `GetRulePrunedInitialSketch` return
just the initial unmodified state. -/
theorem prunedSketch_penultimate_frontier (ruleOf : Nat → AutoGenRule Sched)
    (getAllBlocks : Sched → List String) (sketch_rules : List Nat) (initSched : Sched)
    (depth : Nat) (blockSeq : List String) (stepDraws : Nat → Nat)
    (ruleSeqs : Nat → List Nat) (pruneDraws : Nat → Rat)
    (hrules : sketch_rules.dropLast ≠ [])
    (hseq : ∀ b ∈ blockSeq, b ∈ getAllBlocks initSched) :
    ((getAllBlocks initSched) ≠ [] →
      GetRulePrunedInitialSketch ruleOf getAllBlocks sketch_rules initSched
        = some (frontierFold
            (fun b st => (CollectStateTransfer ruleOf getAllBlocks st b
              sketch_rules.dropLast 0 true 0 (fun _ => 0) 0).1)
            ((getAllBlocks initSched).reverse.dropLast)
            [SearchState.mk initSched NOT_INIT_COST []])) ∧
    (GetRandomPrunedInitialSketch ruleOf getAllBlocks sketch_rules initSched depth
        blockSeq stepDraws ruleSeqs pruneDraws
      = some (((randomFrontierSeq ruleOf getAllBlocks depth stepDraws ruleSeqs pruneDraws
          blockSeq 0 0 0 0 [SearchState.mk initSched NOT_INIT_COST []]).dropLast).getLastD [])) ∧
    (getAllBlocks initSched = [] →
      GetRulePrunedInitialSketch ruleOf getAllBlocks sketch_rules initSched = some [] ∧
      GetRandomPrunedInitialSketch ruleOf getAllBlocks sketch_rules initSched depth
        blockSeq stepDraws ruleSeqs pruneDraws = some []) ∧
    (∀ b0 : String, getAllBlocks initSched = [b0] →
      GetRulePrunedInitialSketch ruleOf getAllBlocks sketch_rules initSched
        = some [SearchState.mk initSched NOT_INIT_COST []]) := by
  have hlen : ¬ sketch_rules.dropLast.length = 0 := by
    intro h0
    exact hrules (List.length_eq_zero.mp h0)
  refine ⟨?_, ?_, ?_, ?_⟩
  · intro hbne
    unfold GetRulePrunedInitialSketch
    rw [if_neg hlen]
    rw [sketchLoop_eq_frontierFold _ _ _ _ (by simpa using hbne)]
  · unfold GetRandomPrunedInitialSketch
    rw [if_neg hlen]
    rw [randomSketchLoop_eq_frontierSeq]
  · intro hbe
    constructor
    · unfold GetRulePrunedInitialSketch
      rw [if_neg hlen, hbe]
      rfl
    · have hbseq : blockSeq = [] := by
        cases blockSeq with
        | nil => rfl
        | cons b bs =>
          have := hseq b (List.mem_cons_self _ _)
          rw [hbe] at this
          exact absurd this (List.not_mem_nil _)
      unfold GetRandomPrunedInitialSketch
      rw [if_neg hlen, hbseq]
      rfl
  · intro b0 hb0
    unfold GetRulePrunedInitialSketch
    rw [if_neg hlen, hb0]
    rfl

/-- Witness for C10 at a one-block program: the generator returns only the
initial unmodified state. -/
theorem prunedSketch_penultimate_frontier_witness :
    GetRulePrunedInitialSketch (fun _ => ruleCannotL) id [0, 1] ["b1"]
      = some [SearchState.mk ["b1"] NOT_INIT_COST []] :=
  (prunedSketch_penultimate_frontier (fun _ => ruleCannotL) id [0, 1] ["b1"] 6 ["b1"]
    (fun _ => 0) (fun _ => [0]) (fun _ => 0) (by decide)
    (by intro b hb; exact hb)).2.2.2 "b1" rfl

/-- C4: the step budgets of `GetRandomPrunedInitialSketch` are drawn from an
`std::mt19937` seeded with `std::random_device` host entropy, not from the
deterministic Random Engine: with everything else fixed (same program, same
registry, same block emission, same prune draws — and no root seed input at
all), two runs whose host-entropy step draws differ (0 vs 1, both legal
draws of `uniform_int_distribution(0, init_rules.size())` with one init
rule) return different frontiers. -/
theorem getRandomPrunedInitialSketch_entropy_dependent :
    GetRandomPrunedInitialSketch ruleOfC4 id [0, 1] ["a", "b"] 6 ["a", "b"]
      (fun _ => 0) (fun _ => [0, 0]) (fun _ => 0)
      = some [SearchState.mk ["a", "b", "m", "m"] NOT_INIT_COST []] ∧
    GetRandomPrunedInitialSketch ruleOfC4 id [0, 1] ["a", "b"] 6 ["a", "b"]
      (fun _ => 1) (fun _ => [0, 0]) (fun _ => 0)
      = some [SearchState.mk ["a", "b", "m"] NOT_INIT_COST []] ∧
    GetRandomPrunedInitialSketch ruleOfC4 id [0, 1] ["a", "b"] 6 ["a", "b"]
        (fun _ => 0) (fun _ => [0, 0]) (fun _ => 0)
      ≠ GetRandomPrunedInitialSketch ruleOfC4 id [0, 1] ["a", "b"] 6 ["a", "b"]
        (fun _ => 1) (fun _ => [0, 0]) (fun _ => 0) := by
  refine ⟨by decide, by decide, ?_⟩
  decide

/-- C5: `GetRandomInitialSketch` draws its sample indices from the
process-global `rand()` stream, which no root seed controls: with a four-rule
registry and a one-block program, the run consuming `rand()` values 0,0,...
returns five copies of one program while the run consuming 1,1,... returns
five copies of another, so two runs under the same root seed need not agree
(both streams arise from the same root seed 42, which `rand()` ignores).
Each run does return exactly 5 states with non-empty representations and
`applicable_rules` equal to the registry. -/
theorem getRandomInitialSketch_rand_dependent :
    GetRandomInitialSketch ruleOfC5 [0, 1, 2, 3] ["p"] 1 5 (fun _ => 0)
      = some (List.replicate 5 (SearchState.mk ["p", "r0"] NOT_INIT_COST [0, 1, 2, 3])) ∧
    GetRandomInitialSketch ruleOfC5 [0, 1, 2, 3] ["p"] 1 5 (fun _ => 1)
      = some (List.replicate 5 (SearchState.mk ["p", "r1"] NOT_INIT_COST [0, 1, 2, 3])) ∧
    GetRandomInitialSketch ruleOfC5 [0, 1, 2, 3] ["p"] 1 5 (fun _ => 0)
      ≠ GetRandomInitialSketch ruleOfC5 [0, 1, 2, 3] ["p"] 1 5 (fun _ => 1) := by
  refine ⟨by decide, by decide, ?_⟩
  decide

end FrontierClaims

/-! ## Termination and count of `GetInitialSketch` with rule pruning (C2) -/

section InitialSketchClaims

variable {Sched : Type}

/-- Under rule-driven pruning, a rule that never signals skip-all prunes no
state: the surviving layer is the input layer. -/
theorem transferStep_keeps_states (ruleOf : Nat → AutoGenRule Sched)
    (getAllBlocks : Sched → List String) (block_name : String) (rl : Nat)
    (prune_probability : Rat) (pruneDraws : Nat → Rat)
    (hnoskip : ∀ st b, (ruleOf rl).analyseApplyType st b ≠ .kApplyAndSkipAllRules) :
    ∀ (layer : List (SearchState Sched)) (d : Nat),
    (transferStep ruleOf getAllBlocks block_name rl true prune_probability pruneDraws
      layer d).1 = layer
  | [], _d => rfl
  | st :: rest, d => by
    have ih := transferStep_keeps_states ruleOf getAllBlocks block_name rl
      prune_probability pruneDraws hnoskip rest d
    simp only [transferStep]
    by_cases hb : CheckBlockExist getAllBlocks st block_name = false
    · rw [if_pos hb]
      simp [ih]
    · rw [if_neg hb]
      cases hty : (ruleOf rl).analyseApplyType st block_name with
      | kCannotApply => simp [ih]
      | kApply => simp [ih]
      | kApplyAndSkipThisRule => simp [ih]
      | kApplyAndSkipAllRules => exact absurd hty (hnoskip st block_name)

/-- Under rule-driven pruning with no skip-all signals, the step loop only
ever appends to the layer. -/
theorem collectGo_extends (ruleOf : Nat → AutoGenRule Sched)
    (getAllBlocks : Sched → List String) (block_name : String) (steps : Nat)
    (prune_probability : Rat) (pruneDraws : Nat → Rat)
    (hnoskip : ∀ rl st b, (ruleOf rl).analyseApplyType st b ≠ .kApplyAndSkipAllRules) :
    ∀ (seq : List Nat) (step : Nat) (layer : List (SearchState Sched)) (d : Nat),
    ∃ ext, (collectGo ruleOf getAllBlocks block_name steps true prune_probability
      pruneDraws seq step layer d).1 = layer ++ ext
  | [], _step, layer, _d => ⟨[], by simp [collectGo]⟩
  | rl :: rest, step, layer, d => by
    simp only [collectGo]
    split
    · rw [transferStep_keeps_states ruleOf getAllBlocks block_name rl prune_probability
        pruneDraws (hnoskip rl) layer d]
      obtain ⟨ext, hext⟩ := collectGo_extends ruleOf getAllBlocks block_name steps
        prune_probability pruneDraws hnoskip rest (step + 1)
        (layer ++ (transferStep ruleOf getAllBlocks block_name rl true
          prune_probability pruneDraws layer d).2.1)
        (transferStep ruleOf getAllBlocks block_name rl true prune_probability
          pruneDraws layer d).2.2
      exact ⟨_, by rw [hext, List.append_assoc]⟩
    · exact ⟨[], by simp⟩

/-- With no skip-all signals, `CollectStateTransfer` always returns a layer
containing at least the input state. -/
theorem collectStateTransfer_ne_nil (ruleOf : Nat → AutoGenRule Sched)
    (getAllBlocks : Sched → List String) (state : SearchState Sched)
    (block_name : String) (ruleSeq : List Nat) (steps : Nat)
    (prune_probability : Rat) (pruneDraws : Nat → Rat) (d : Nat)
    (hnoskip : ∀ rl st b, (ruleOf rl).analyseApplyType st b ≠ .kApplyAndSkipAllRules) :
    (CollectStateTransfer ruleOf getAllBlocks state block_name ruleSeq steps true
      prune_probability pruneDraws d).1 ≠ [] := by
  obtain ⟨ext, hext⟩ := collectGo_extends ruleOf getAllBlocks block_name steps
    prune_probability pruneDraws hnoskip ruleSeq 0 [state] d
  unfold CollectStateTransfer
  rw [hext]
  simp

/-- Expansion by non-empty per-state results preserves a non-empty
frontier. -/
theorem frontierFold_ne_nil (expand : String → SearchState Sched → List (SearchState Sched))
    (hexp : ∀ b st, expand b st ≠ []) :
    ∀ (bs : List String) (cur : List (SearchState Sched)), cur ≠ [] →
    frontierFold expand bs cur ≠ []
  | [], _cur, hcur => hcur
  | b :: bs, cur, hcur => by
    simp only [frontierFold]
    apply frontierFold_ne_nil expand hexp bs
    cases cur with
    | nil => exact absurd rfl hcur
    | cons c rest =>
      simp only [List.flatMap_cons]
      intro hnil
      rcases List.append_eq_nil.mp hnil with ⟨h1, _⟩
      exact hexp b c h1

/-- Length of the reverse-order accumulation: it adds states until `num` is
reached or the batch is exhausted. -/
theorem pushUpto_length (num : Nat) :
    ∀ (l acc : List (SearchState Sched)), acc.length < num →
    (pushUpto num acc l).length = acc.length + min (num - acc.length) l.length
  | [], acc, h => by simp [pushUpto]
  | s :: rest, acc, h => by
    have hacc : (acc ++ [s]).length = acc.length + 1 := by simp
    simp only [pushUpto]
    split
    · rename_i hfull
      rw [hacc] at hfull
      rw [hacc]
      simp only [List.length_cons]
      omega
    · rename_i hfull
      rw [hacc] at hfull
      have hlt : (acc ++ [s]).length < num := by
        rw [hacc]
        omega
      rw [pushUpto_length num rest (acc ++ [s]) hlt, hacc]
      simp only [List.length_cons]
      omega

/-- The accumulation loop of `GetInitialSketch` with a constant non-empty
batch terminates with exactly `num` results once the fuel covers the deficit. -/
theorem accumLoop_const_length (sk : List (SearchState Sched)) (hsk : sk ≠ [])
    (num : Nat) :
    ∀ (fuel ci : Nat) (acc : List (SearchState Sched)),
    acc.length ≤ num → num ≤ fuel + acc.length →
    ∃ res, accumLoop (fun _ => some sk) num fuel ci acc = some res ∧ res.length = num
  | 0, _ci, acc, hle, hge => by
    have : acc.length = num := by omega
    exact ⟨acc, by simp [accumLoop, this], this⟩
  | fuel + 1, ci, acc, hle, hge => by
    by_cases hdone : num ≤ acc.length
    · have : acc.length = num := by omega
      exact ⟨acc, by simp [accumLoop, hdone], this⟩
    · have hlt : acc.length < num := by omega
      have hrev : 1 ≤ sk.reverse.length := by
        rw [List.length_reverse]
        cases sk with
        | nil => exact absurd rfl hsk
        | cons a l => simp
      have hpl := pushUpto_length num sk.reverse acc hlt
      have hle' : (pushUpto num acc sk.reverse).length ≤ num := by omega
      have hge' : num ≤ fuel + (pushUpto num acc sk.reverse).length := by omega
      obtain ⟨res, hres, hlen⟩ := accumLoop_const_length sk hsk num fuel (ci + 1)
        (pushUpto num acc sk.reverse) hle' hge'
      refine ⟨res, ?_, hlen⟩
      simp only [accumLoop, if_neg hdone]
      exact hres

/-- C2 counterexample: a two-block program and a registry of rules that never
apply (so, in particular, never signal skip-all): `GetInitialSketch(3,
"rule_prune")` returns three states, every one of them THE initial unmodified
program, refuting the claim that each returned state is distinct from it. -/
theorem getInitialSketch_counterexample :
    GetInitialSketch (fun _ => ruleCannotL) id [0, 1] ["b1", "b2"] (fun _ => none)
        3 3 "rule_prune"
      = some [SearchState.mk ["b1", "b2"] NOT_INIT_COST [],
              SearchState.mk ["b1", "b2"] NOT_INIT_COST [],
              SearchState.mk ["b1", "b2"] NOT_INIT_COST []] ∧
    (ruleCannotL.analyseApplyType (SearchState.mk ["b1", "b2"] NOT_INIT_COST []) "b1"
      ≠ .kApplyAndSkipAllRules) := by
  constructor
  · decide
  · decide

/-- C2 (amended): with a two-block program, a registry whose non-excluded
part is non-empty, and rules that never signal skip-all,
`GetInitialSketch(3, "rule_prune")` terminates and returns exactly 3 states —
but those states need not differ from the initial unmodified program: the
unpruned initial state always survives in the returned frontier (see the
counterexample, where all 3 returned states equal it). -/
theorem getInitialSketch_rule_prune_three (ruleOf : Nat → AutoGenRule Sched)
    (getAllBlocks : Sched → List String) (sketch_rules : List Nat) (initSched : Sched)
    (randomRuns : Nat → Option (List (SearchState Sched))) (b1 b2 : String)
    (hrules : sketch_rules.dropLast ≠ [])
    (hblocks : getAllBlocks initSched = [b1, b2])
    (hnoskip : ∀ i st b, (ruleOf i).analyseApplyType st b ≠ .kApplyAndSkipAllRules) :
    ∃ res, GetInitialSketch ruleOf getAllBlocks sketch_rules initSched randomRuns
      3 3 "rule_prune" = some res ∧ res.length = 3 := by
  have hlen : ¬ sketch_rules.dropLast.length = 0 := by
    intro h0
    exact hrules (List.length_eq_zero.mp h0)
  have hgen := (prunedSketch_penultimate_frontier ruleOf getAllBlocks sketch_rules
    initSched 0 [] (fun _ => 0) (fun _ => []) (fun _ => 0) hrules (by simp)).1
    (by rw [hblocks]; simp)
  set sk := frontierFold
    (fun b st => (CollectStateTransfer ruleOf getAllBlocks st b
      sketch_rules.dropLast 0 true 0 (fun _ => 0) 0).1)
    ((getAllBlocks initSched).reverse.dropLast)
    [SearchState.mk initSched NOT_INIT_COST []] with hskdef
  have hskne : sk ≠ [] := by
    rw [hskdef]
    apply frontierFold_ne_nil
    · intro b st
      exact collectStateTransfer_ne_nil ruleOf getAllBlocks st b
        sketch_rules.dropLast 0 0 (fun _ => 0) 0 hnoskip
    · simp
  obtain ⟨res, hres, hreslen⟩ := accumLoop_const_length sk hskne 3 3 0 []
    (by simp) (by simp)
  refine ⟨res, ?_, hreslen⟩
  unfold GetInitialSketch
  rw [if_pos rfl, hgen]
  exact hres

/-- Witness for the amended C2 at the concrete never-apply scenario. -/
theorem getInitialSketch_rule_prune_three_witness :
    ∃ res, GetInitialSketch (fun _ => ruleCannotL) id [0, 1] ["b1", "b2"]
      (fun _ => none) 3 3 "rule_prune" = some res ∧ res.length = 3 :=
  getInitialSketch_rule_prune_three (fun _ => ruleCannotL) id [0, 1] ["b1", "b2"]
    (fun _ => none) "b1" "b2" (by decide) rfl
    (fun i st b => by simp [ruleCannotL])

end InitialSketchClaims
